import Mathlib

/-!
Verification of the experience-replay DQN training core of `models/rl_process.py`
(repository EmpRamses/rl_vrp): the replay ring buffer, uniform sampling, the
epsilon-greedy action selector, the TD-target computation of `optimize_model`,
the target-network synchronisation and the checkpoint cadence of `rl_process`.

The Python code is shallowly embedded: tensors of per-action values become
`List ℚ`, the real-valued epsilon schedule lives in `ℝ`, stateful objects
become explicit state passing, and a Python exception becomes `none` of an
`Option`.  The policy/value network and the LVRP environment are external
collaborators of the specified core (their files are not part of the verified
sources); they appear as opaque function parameters, and the state encoding's
designated feasibility row is modelled from the spec.
-/

namespace RlVrp

/-- The `Transition` namedtuple of `rl_process.py`:
`('state', 'action', 'next_state', 'reward')`.  `next_state = None` (here
`Option.none`) marks a terminal transition.  Actions are indices; rewards are
scalars, embedded as `ℚ`. -/
structure Transition (S : Type) where
  state : S
  action : ℕ
  next_state : Option S
  reward : ℚ
  deriving DecidableEq

/-- The `ReplayMemory` object: `capacity`, the backing list `memory`
(Python grows it with `None` placeholders that are immediately overwritten,
hence entries of type `Option`), and the write cursor `position`. -/
structure ReplayMemory (α : Type) where
  capacity : ℕ
  memory : List (Option α)
  position : ℕ
  deriving DecidableEq

/-- Python `ReplayMemory.__init__(capacity)`: empty buffer, cursor at 0. -/
def ReplayMemory.empty (α : Type) (capacity : ℕ) : ReplayMemory α :=
  { capacity := capacity, memory := [], position := 0 }

/-- Python `ReplayMemory.push`: if the buffer is below capacity, append a `None`
placeholder; write the transition at `position`; advance the cursor modulo
`capacity`. -/
def ReplayMemory.push (mem : ReplayMemory α) (t : α) : ReplayMemory α :=
  let m := if mem.memory.length < mem.capacity then mem.memory ++ [none] else mem.memory
  { capacity := mem.capacity
    memory := m.set mem.position (some t)
    position := (mem.position + 1) % mem.capacity }

/-- Python `ReplayMemory.__len__`: the occupied length of the backing list. -/
def ReplayMemory.size (mem : ReplayMemory α) : ℕ :=
  mem.memory.length

/-- A sequence of `push` calls, oldest first. -/
def pushAll (ts : List α) (mem : ReplayMemory α) : ReplayMemory α :=
  ts.foldl ReplayMemory.push mem

/-- Python `ReplayMemory.sample`, i.e. `random.sample(self.memory, batch_size)`.
The random draw is made explicit as the list `idxs` of chosen positions
(`random.sample` picks `batch_size` pairwise-distinct valid positions of the
population and never mutates it); if `batch_size` exceeds the population it
raises `ValueError`, embedded as `none`. -/
def ReplayMemory.sample (mem : ReplayMemory α) (batch_size : ℕ) (idxs : List ℕ) :
    Option (List (Option α)) :=
  if batch_size ≤ mem.memory.length ∧ idxs.length = batch_size ∧ idxs.Nodup ∧
      ∀ i ∈ idxs, i < mem.memory.length then
    some (idxs.map fun i => mem.memory.getD i none)
  else
    none

/-- The discount factor `GAMMA = 0.999` of `optimize_model`. -/
def GAMMA : ℚ := 0.999

/-- Torch `tensor.max()` over a row of action values (`.max(1)[0]` applied row-wise);
defined as 0 on the empty row, which torch rejects and no reachable call
produces. -/
def vmax : List ℚ → ℚ
  | [] => 0
  | [x] => x
  | x :: xs => max x (vmax xs)

/-- First index attaining the maximum: `tensor.argmax()` over a row. -/
def argmaxIdx : List ℚ → ℕ
  | [] => 0
  | [_] => 0
  | x :: xs => if vmax xs ≤ x then 0 else argmaxIdx xs + 1

/-- Boolean mask `non_final_mask`: which sampled transitions have a
non-terminal next state. -/
def nonFinalMask (batch : List (Transition S)) : List Bool :=
  batch.map fun t => t.next_state.isSome

/-- The list `non_final_next_states` before concatenation: the non-terminal next states
in batch order. -/
def nonFinalNextStates (batch : List (Transition S)) : List S :=
  batch.filterMap fun t => t.next_state

/-- The masked assignment `zeros[mask] = vals`: positions where the mask is
true receive the values in order, the rest stay 0. -/
def scatterMask : List Bool → List ℚ → List ℚ
  | [], _ => []
  | true :: ms, v :: vs => v :: scatterMask ms vs
  | true :: ms, [] => 0 :: scatterMask ms []
  | false :: ms, vs => 0 :: scatterMask ms vs

/-- The TD targets (`expected_state_action_values`) computed by
`optimize_model` from a sampled batch, given the target network as a function
from states to rows of action values.  `torch.cat` of the empty list of
non-final next states raises a `RuntimeError`, embedded as `none`: the code
builds `non_final_next_states` unconditionally, so a batch whose transitions
are all terminal makes the call fail.  Otherwise
`next_state_values = zeros; next_state_values[mask] = target(non_final).max(1)[0]`
and the targets are `next_state_values * GAMMA + reward_batch`. -/
def tdTargets (target_net : S → List ℚ) (batch : List (Transition S)) :
    Option (List ℚ) :=
  if (nonFinalNextStates batch).isEmpty then none
  else
    let next_state_values :=
      scatterMask (nonFinalMask batch)
        ((nonFinalNextStates batch).map fun s => vmax (target_net s))
    some (List.zipWith (fun v t => v * GAMMA + t.reward) next_state_values batch)

/-- The TD target as the spec words it, for comparison with `tdTargets`:
`reward + GAMMA * V(s')` where `V` is the target network's maximum action
value on a non-terminal next state and `V = 0` on a terminal one. -/
def tdTargetSpec (target_net : S → List ℚ) (t : Transition S) : ℚ :=
  t.reward + GAMMA * (match t.next_state with
    | none => 0
    | some s => vmax (target_net s))

/-- Collapse a list of optional values: `Transition(*zip(*transitions))`
fails on a `None` entry (never present after pushes). -/
def seqOptions : List (Option α) → Option (List α)
  | [] => some []
  | none :: _ => none
  | some a :: l => (seqOptions l).map fun l' => a :: l'

/-- The mutable state `optimize_model` can see: the replay memory, the policy
network's parameters, the target network's parameters and the optimizer
state. -/
structure DQNState (S P O : Type) where
  memory : ReplayMemory (Transition S)
  policyP : P
  targetP : P
  optS : O
  deriving DecidableEq

/-- Python `optimize_model`.  If the memory holds fewer than `batch_size` transitions
it returns at once.  Otherwise it samples a batch (`idxs` is the random draw),
computes `Q(s,a)` with the policy network (`gather` on the taken action),
computes the TD targets against the target network, and performs the gradient
step — loss, backward, per-parameter clamp to `[-1,1]` and `optimizer.step()`
are torch/autograd internals, abstracted as `grad_step`, which consumes the
predicted values and the targets and returns new policy parameters and a new
optimizer state.  Any raised error is `none`; otherwise only the `policyP` and
`optS` fields of the state are rebuilt. -/
def optimize_model (grad_step : P → O → List ℚ → List ℚ → P × O)
    (policy_fwd : P → S → List ℚ) (target_fwd : P → S → List ℚ)
    (st : DQNState S P O) (batch_size : ℕ) (idxs : List ℕ) :
    Option (DQNState S P O) :=
  if st.memory.size < batch_size then some st
  else
    match st.memory.sample batch_size idxs with
    | none => none
    | some sampled =>
      match seqOptions sampled with
      | none => none
      | some batch =>
        match tdTargets (target_fwd st.targetP) batch with
        | none => none
        | some expected =>
          let state_action_values :=
            batch.map fun t => (policy_fwd st.policyP t.state).getD t.action 0
          let po := grad_step st.policyP st.optS state_action_values expected
          some { st with policyP := po.1, optS := po.2 }

/-- Constant `EPS_START` of `select_action`. -/
def EPS_START : ℝ := 0.9

/-- Constant `EPS_END` of `select_action`. -/
def EPS_END : ℝ := 0.05

/-- Constant `EPS_DECAY` of `select_action`. -/
def EPS_DECAY : ℝ := 200

/-- The epsilon schedule of `select_action`:
`eps_threshold = EPS_END + (EPS_START - EPS_END) * exp(-1. * steps_done / EPS_DECAY)`. -/
noncomputable def eps_threshold (steps_done : ℕ) : ℝ :=
  EPS_END + (EPS_START - EPS_END) * Real.exp (-1 * (steps_done : ℝ) / EPS_DECAY)

/-- Modelled from the spec: the state encoding built by the LVRP environment
(`envs/LVRP.py`, not among the verified sources) embeds a designated
feasibility row — the row `select_action` reads as
`state.transpose(1, 0)[-2, 0]` — whose nonzero entries mark the currently
accessible actions.  Only that row is relevant here; the rest of the encoding
is consumed opaquely by the networks. -/
structure RLState where
  feas : List ℚ
  deriving DecidableEq

/-- Torch `torch.nonzero` on a row: the indices of its nonzero entries, ascending. -/
def nonzeroIdx (l : List ℚ) : List ℕ :=
  (List.range l.length).filter fun i => l.getD i 0 ≠ 0

/-- The accessible-action set encoded in a state: indices of nonzero entries
of the designated feasibility row. -/
def accessSet (s : RLState) : List ℕ :=
  nonzeroIdx s.feas

/-- Python `select_action(state, steps_done, policy_net, device)`.  The uniform draw
`sample = random.random()` is the explicit parameter `u`, and the exploration
draw `random.randrange(access.shape[0])` is the explicit parameter `ridx`
(`randrange` on an empty range raises `ValueError`, embedded as `none`).
`steps_done` is incremented unconditionally.  If `u > eps_threshold` the
action is the argmax of the policy network's output over the full action
space; otherwise it is the `ridx`-th accessible index. -/
noncomputable def select_action (policy_net : RLState → List ℚ) (u : ℝ)
    (ridx : ℕ) (state : RLState) (steps_done : ℕ) : Option (ℕ × ℕ) :=
  if u > eps_threshold steps_done then
    some (argmaxIdx (policy_net state), steps_done + 1)
  else
    let access := accessSet state
    if access.length = 0 then none
    else some (access.getD ridx 0, steps_done + 1)

/-- The two networks of `rl_process`: the policy network's and the target
network's parameter sets (same architecture, independently owned). -/
structure NetPair (P : Type) where
  policy : P
  target : P
  deriving DecidableEq

/-- The end-of-episode bookkeeping of `rl_process` for episode `i_episode`:
the episode's optimization steps have updated the policy parameters (the
whole inner loop is abstracted as `train`), then
`if i_episode % update_tgt == 0: target_net.load_state_dict(policy_net.state_dict())`. -/
def episodeEndUpdate (train : P → P) (update_tgt i_episode : ℕ)
    (nets : NetPair P) : NetPair P :=
  let nets' : NetPair P := { policy := train nets.policy, target := nets.target }
  if i_episode % update_tgt = 0 then { policy := nets'.policy, target := nets'.policy }
  else nets'

/-- The checkpoint bookkeeping of the episode loop of `rl_process`: starting
from saved keys `[]`, each episode `i_episode ∈ range epi_num` runs
`if (i_episode + 1) % store_step == 0: torch.save(..., "saved/attn_{}.pth".format(i_episode + 1))`.
A `store_step` of 0 makes the modulo raise `ZeroDivisionError` at the first
episode's end, embedded as `none`; otherwise the run completes and returns the
list of 1-based episode indices at which a checkpoint was saved. -/
def runEpisodes (store_step epi_num : ℕ) : Option (List ℕ) :=
  (List.range epi_num).foldlM
    (fun keys i =>
      if store_step = 0 then none
      else if (i + 1) % store_step = 0 then some (keys ++ [i + 1]) else some keys)
    []

/-- The checkpoint behaviour of a whole `rl_process` run:
`store_step = int(epi_num / store)` (truncating division; `store = 0` raises
`ZeroDivisionError` before the loop, embedded as `none`), then the episode
loop. -/
def rlCheckpoints (epi_num store : ℕ) : Option (List ℕ) :=
  if store = 0 then none else runEpisodes (epi_num / store) epi_num

/-! ## Supporting lemmas -/

/-- The masked assignment of the target values agrees pointwise with the
per-transition value `V(s')`: masked positions receive the target network's
row maximum for their (non-terminal) next state, the rest stay 0. -/
theorem scatterMask_nonFinal (target_net : S → List ℚ) (batch : List (Transition S)) :
    scatterMask (nonFinalMask batch)
        ((nonFinalNextStates batch).map fun s => vmax (target_net s)) =
      batch.map fun t =>
        match t.next_state with
        | none => 0
        | some s => vmax (target_net s) := by
  induction batch with
  | nil => rfl
  | cons t rest ih =>
    cases h : t.next_state with
    | none =>
      simp only [nonFinalMask, nonFinalNextStates, List.map_cons, List.filterMap_cons, h,
        Option.isSome_none, scatterMask] at *
      exact congrArg _ ih
    | some s =>
      simp only [nonFinalMask, nonFinalNextStates, List.map_cons, List.filterMap_cons, h,
        Option.isSome_some, scatterMask] at *
      exact congrArg _ ih

/-- Zipping the per-transition state values with the rewards yields the
spec's TD target transition by transition. -/
theorem zipWith_value_reward (target_net : S → List ℚ) (batch : List (Transition S)) :
    List.zipWith (fun v t => v * GAMMA + t.reward)
        (batch.map fun t =>
          match t.next_state with
          | none => 0
          | some s => vmax (target_net s))
        batch =
      batch.map (tdTargetSpec target_net) := by
  induction batch with
  | nil => rfl
  | cons t rest ih =>
    simp only [List.map_cons, List.zipWith_cons_cons, ih]
    congr 1
    unfold tdTargetSpec
    cases t.next_state <;> ring

/-- On a batch with at least one non-terminal transition, `optimize_model`'s
TD targets are exactly the spec's `reward + GAMMA * V(s')`, transition by
transition. -/
theorem tdTargets_eq_spec (target_net : S → List ℚ) (batch : List (Transition S))
    (h : nonFinalNextStates batch ≠ []) :
    tdTargets target_net batch = some (batch.map (tdTargetSpec target_net)) := by
  unfold tdTargets
  rw [if_neg (by simpa [List.isEmpty_iff] using h)]
  simp only [scatterMask_nonFinal, zipWith_value_reward]

/-- Unfolding `vmax` on a list of two or more entries. -/
theorem vmax_cons (x : ℚ) (xs : List ℚ) (h : xs ≠ []) :
    vmax (x :: xs) = max x (vmax xs) := by
  cases xs with
  | nil => exact absurd rfl h
  | cons y ys => rfl

/-- Unfolding `argmaxIdx` on a list of two or more entries. -/
theorem argmaxIdx_cons (x : ℚ) (xs : List ℚ) (h : xs ≠ []) :
    argmaxIdx (x :: xs) = if vmax xs ≤ x then 0 else argmaxIdx xs + 1 := by
  cases xs with
  | nil => exact absurd rfl h
  | cons y ys => rfl

/-- The index `argmaxIdx` lands inside the row and attains the row maximum. -/
theorem argmaxIdx_spec : ∀ l : List ℚ, l ≠ [] →
    argmaxIdx l < l.length ∧ l.getD (argmaxIdx l) 0 = vmax l := by
  intro l
  induction l with
  | nil => intro h; exact absurd rfl h
  | cons x xs ih =>
    intro _
    cases xs with
    | nil =>
      refine ⟨by simp [argmaxIdx], by simp [argmaxIdx, vmax]⟩
    | cons y ys =>
      have hne : (y :: ys) ≠ [] := by simp
      obtain ⟨ih1, ih2⟩ := ih hne
      rw [argmaxIdx_cons x _ hne, vmax_cons x _ hne]
      by_cases hle : vmax (y :: ys) ≤ x
      · rw [if_pos hle]
        exact ⟨by simp, by simp [max_eq_left hle]⟩
      · rw [if_neg hle]
        have hx : x ≤ vmax (y :: ys) := le_of_not_le hle
        refine ⟨by simpa using Nat.succ_lt_succ ih1, ?_⟩
        rw [List.getD_cons_succ, ih2]
        exact (max_eq_right hx).symm

/-! ## The claims -/

/-- Claim C7: when the replay memory holds fewer than `batch_size`
transitions, `optimize_model` returns at once and mutates nothing: the policy
parameters, the target parameters, the optimizer state and the replay memory
are all exactly as before the call. -/
theorem optimize_model_insufficient_data_noop {S P O : Type}
    (grad_step : P → O → List ℚ → List ℚ → P × O)
    (policy_fwd target_fwd : P → S → List ℚ)
    (st : DQNState S P O) (batch_size : ℕ) (idxs : List ℕ)
    (h : st.memory.size < batch_size) :
    optimize_model grad_step policy_fwd target_fwd st batch_size idxs = some st := by
  unfold optimize_model
  rw [if_pos h]

/-- Witness for C7: a concrete skipped call on an empty memory. -/
theorem optimize_model_insufficient_data_noop_witness :
    optimize_model (S := ℕ) (P := ℕ) (O := ℕ) (fun p o _ _ => (p + 1, o + 1))
      (fun _ _ => [1]) (fun _ _ => [1])
      ⟨ReplayMemory.empty _ 5, 3, 4, 6⟩ 2 [] =
      some ⟨ReplayMemory.empty _ 5, 3, 4, 6⟩ :=
  optimize_model_insufficient_data_noop _ _ _ _ _ _ (by decide)

/-- Claim C9: a call to `optimize_model` with at least `batch_size`
transitions in memory rebuilds only the policy parameters and the optimizer
state; whatever state it returns has the target network's parameters and the
replay memory (contents, cursor and capacity alike) unchanged. -/
theorem optimize_model_frame {S P O : Type}
    (grad_step : P → O → List ℚ → List ℚ → P × O)
    (policy_fwd target_fwd : P → S → List ℚ)
    (st : DQNState S P O) (batch_size : ℕ) (idxs : List ℕ)
    (h : batch_size ≤ st.memory.size) :
    ∀ st', optimize_model grad_step policy_fwd target_fwd st batch_size idxs = some st' →
      st'.memory = st.memory ∧ st'.targetP = st.targetP := by
  intro st' hst'
  unfold optimize_model at hst'
  rw [if_neg (Nat.not_lt.mpr h)] at hst'
  cases hs : st.memory.sample batch_size idxs with
  | none => simp only [hs] at hst'; cases hst'
  | some sampled =>
    simp only [hs] at hst'
    cases hq : seqOptions sampled with
    | none => simp only [hq] at hst'; cases hst'
    | some batch =>
      simp only [hq] at hst'
      cases ht : tdTargets (target_fwd st.targetP) batch with
      | none => simp only [ht] at hst'; cases hst'
      | some expected =>
        simp only [ht, Option.some.injEq] at hst'
        subst hst'
        exact ⟨rfl, rfl⟩

/-- Witness for C9: a concrete successful optimization step; the memory and
the target parameters come back unchanged. -/
theorem optimize_model_frame_witness :
    (⟨⟨10, [some ⟨5, 0, some 6, 2⟩], 1⟩, 4, 4, 6⟩ : DQNState ℕ ℕ ℕ).memory =
        (⟨⟨10, [some ⟨5, 0, some 6, 2⟩], 1⟩, 3, 4, 5⟩ : DQNState ℕ ℕ ℕ).memory ∧
      (⟨⟨10, [some ⟨5, 0, some 6, 2⟩], 1⟩, 4, 4, 6⟩ : DQNState ℕ ℕ ℕ).targetP =
        (⟨⟨10, [some ⟨5, 0, some 6, 2⟩], 1⟩, 3, 4, 5⟩ : DQNState ℕ ℕ ℕ).targetP :=
  optimize_model_frame (fun p o _ _ => (p + 1, o + 1)) (fun _ _ => [1]) (fun _ _ => [1])
    (⟨⟨10, [some ⟨5, 0, some 6, 2⟩], 1⟩, 3, 4, 5⟩ : DQNState ℕ ℕ ℕ) 1 [0] (by decide)
    (⟨⟨10, [some ⟨5, 0, some 6, 2⟩], 1⟩, 4, 4, 6⟩ : DQNState ℕ ℕ ℕ) (by rfl)

/-- Claim C6: right after a target sync — which the episode loop performs at
the end of every episode whose index satisfies `i_episode % update_tgt == 0`,
episode 0 included — the target network's parameters equal the policy
network's current parameters verbatim, so any forward function maps both to
the same output on every input. -/
theorem target_sync_verbatim {P I O : Type} (train : P → P)
    (update_tgt i_episode : ℕ) (nets : NetPair P)
    (h : i_episode % update_tgt = 0) :
    (episodeEndUpdate train update_tgt i_episode nets).target =
        (episodeEndUpdate train update_tgt i_episode nets).policy ∧
      ∀ (fwd : P → I → O) (x : I),
        fwd (episodeEndUpdate train update_tgt i_episode nets).target x =
          fwd (episodeEndUpdate train update_tgt i_episode nets).policy x := by
  refine ⟨?_, fun fwd x => ?_⟩ <;> simp [episodeEndUpdate, h]

/-- Witness for C6: a concrete sync at episode 0. -/
theorem target_sync_verbatim_witness :
    (episodeEndUpdate (fun p => p + 1) 5 0 ⟨3, 9⟩ : NetPair ℕ).target =
      (episodeEndUpdate (fun p => p + 1) 5 0 ⟨3, 9⟩ : NetPair ℕ).policy :=
  (target_sync_verbatim (I := ℕ) (O := ℕ) (fun p => p + 1) 5 0 ⟨3, 9⟩ (by decide)).1

/-- Claim C1 (code bug): on a sampled batch consisting entirely of terminal
transitions, `optimize_model` does not produce `target == reward` — it raises,
because `torch.cat` is applied to the empty list of non-final next states
before any TD target is formed.  The first conjunct evaluates the embedded
`optimize_model` on a memory holding a single terminal transition with
`batch_size = 1`: the call errors (`none`).  The second conjunct evaluates the
spec's own TD target on that batch: it is the reward, `5`, as the claim
states. -/
theorem optimize_model_all_terminal_raises :
    optimize_model (S := ℕ) (P := ℕ) (O := ℕ) (fun p o _ _ => (p, o))
        (fun _ _ => [7]) (fun _ _ => [7])
        ⟨⟨10, [some ⟨0, 0, none, 5⟩], 1⟩, 0, 0, 0⟩ 1 [0] = none ∧
      [(⟨0, 0, none, 5⟩ : Transition ℕ)].map (tdTargetSpec fun _ => [7]) = [5] := by
  constructor
  · rfl
  · simp [tdTargetSpec, GAMMA]

/-- Membership in `torch.nonzero` of a row: a valid position holding a
nonzero entry. -/
theorem mem_nonzeroIdx (l : List ℚ) (i : ℕ) (h : i ∈ nonzeroIdx l) :
    i < l.length ∧ l.getD i 0 ≠ 0 := by
  unfold nonzeroIdx at h
  rw [List.mem_filter] at h
  obtain ⟨h1, h2⟩ := h
  rw [List.mem_range] at h1
  exact ⟨h1, by simpa using h2⟩

/-- Claim C5: on the exploration branch (`u ≤ eps_threshold`), whenever the
random index is in range, `select_action` returns (with the incremented step
count) an action index from the accessible set encoded in the state — a
position holding a nonzero entry of the designated feasibility row; on the
exploitation branch (`u > eps_threshold`) it returns the argmax of the policy
network's output over the full action space, with no feasibility mask — an
index into the network's row attaining its maximum, a deterministic function
of the network and the state. -/
theorem select_action_branches (policy_net : RLState → List ℚ) (u : ℝ)
    (ridx : ℕ) (state : RLState) (steps_done : ℕ) :
    (¬ u > eps_threshold steps_done → ridx < (accessSet state).length →
      ∃ a, select_action policy_net u ridx state steps_done =
          some (a, steps_done + 1) ∧
        a < state.feas.length ∧ state.feas.getD a 0 ≠ 0) ∧
    (u > eps_threshold steps_done →
      select_action policy_net u ridx state steps_done =
          some (argmaxIdx (policy_net state), steps_done + 1) ∧
        (policy_net state ≠ [] →
          argmaxIdx (policy_net state) < (policy_net state).length ∧
            (policy_net state).getD (argmaxIdx (policy_net state)) 0 =
              vmax (policy_net state))) := by
  constructor
  · intro hu hr
    have hlen : (accessSet state).length ≠ 0 := by omega
    refine ⟨(accessSet state).getD ridx 0, ?_, ?_⟩
    · simp only [select_action]
      rw [if_neg hu, if_neg hlen]
    · have hmem : (accessSet state).getD ridx 0 ∈ accessSet state := by
        rw [List.getD_eq_getElem _ _ hr]
        exact List.getElem_mem _
      unfold accessSet at hmem
      exact mem_nonzeroIdx _ _ hmem
  · intro hu
    constructor
    · simp only [select_action]
      rw [if_pos hu]
    · intro hne
      exact argmaxIdx_spec _ hne

/-- Witness for C5: with feasibility row `[0, 3]`, exploring with `u = 0`
returns an accessible index, and exploiting with `u = 1` returns the argmax
of the network row `[2, 1]`. -/
theorem select_action_branches_witness :
    (∃ a, select_action (fun _ => [2, 1]) 0 0 ⟨[0, 3]⟩ 0 = some (a, 0 + 1) ∧
        a < (RLState.mk [0, 3]).feas.length ∧
          (RLState.mk [0, 3]).feas.getD a 0 ≠ 0) ∧
      select_action (fun _ => [2, 1]) 1 0 ⟨[0, 3]⟩ 0 =
        some (argmaxIdx ([2, 1] : List ℚ), 0 + 1) := by
  have heps : eps_threshold 0 = 0.9 := by
    unfold eps_threshold EPS_START EPS_END EPS_DECAY
    norm_num
  constructor
  · refine (select_action_branches (fun _ => [2, 1]) 0 0 ⟨[0, 3]⟩ 0).1 ?_ ?_
    · rw [not_lt, heps]
      norm_num
    · decide
  · exact ((select_action_branches (fun _ => [2, 1]) 1 0 ⟨[0, 3]⟩ 0).2
      (by rw [heps]; norm_num)).1

/-- Closed form of a `ReplayMemory` after any sequence of `push` calls into a
fresh buffer of positive capacity `C`: with `n` pushes, `r = n % C` and
`m = min n C`, the capacity is unchanged, the backing list holds `m` entries,
the cursor sits at `r`, and the backing list is the last `m` pushed values
rotated so that the `r` newest sit before the `m - r` older ones. -/
theorem pushAll_closed_form {α : Type} (C : ℕ) (hC : 0 < C) (ts : List α) :
    (pushAll ts (ReplayMemory.empty α C)).capacity = C ∧
      (pushAll ts (ReplayMemory.empty α C)).memory.length = min ts.length C ∧
      (pushAll ts (ReplayMemory.empty α C)).position = ts.length % C ∧
      (pushAll ts (ReplayMemory.empty α C)).memory =
        (ts.drop (ts.length - ts.length % C) ++
          (ts.drop (ts.length - min ts.length C)).take
            (min ts.length C - ts.length % C)).map some := by
  induction ts using List.reverseRecOn with
  | nil =>
    exact ⟨rfl, by simp [pushAll, ReplayMemory.empty],
      by simp [pushAll, ReplayMemory.empty],
      by simp [pushAll, ReplayMemory.empty]⟩
  | append_singleton ts t ih =>
    obtain ⟨ihc, ihl, ihp, ihm⟩ := ih
    have hstep : pushAll (ts ++ [t]) (ReplayMemory.empty α C) =
        (pushAll ts (ReplayMemory.empty α C)).push t := by
      unfold pushAll
      rw [List.foldl_append]
      rfl
    rw [hstep]
    have hmem_eq : ((pushAll ts (ReplayMemory.empty α C)).push t).memory =
        (if (pushAll ts (ReplayMemory.empty α C)).memory.length <
            (pushAll ts (ReplayMemory.empty α C)).capacity then
          (pushAll ts (ReplayMemory.empty α C)).memory ++ [none]
        else (pushAll ts (ReplayMemory.empty α C)).memory).set
          (pushAll ts (ReplayMemory.empty α C)).position (some t) := rfl
    have hpos_eq : ((pushAll ts (ReplayMemory.empty α C)).push t).position =
        ((pushAll ts (ReplayMemory.empty α C)).position + 1) %
          (pushAll ts (ReplayMemory.empty α C)).capacity := rfl
    have hlen' : (ts ++ [t]).length = ts.length + 1 := by simp
    rcases Nat.lt_or_ge ts.length C with hlt | hge
    · -- growing phase: the buffer is below capacity
      have hr : ts.length % C = ts.length := Nat.mod_eq_of_lt hlt
      have hmin : min ts.length C = ts.length := min_eq_left hlt.le
      have hm : (pushAll ts (ReplayMemory.empty α C)).memory = ts.map some := by
        rw [ihm, hr, hmin]
        simp
      have hp : (pushAll ts (ReplayMemory.empty α C)).position = ts.length := by
        rw [ihp, hr]
      have hcap_lt : (pushAll ts (ReplayMemory.empty α C)).memory.length <
          (pushAll ts (ReplayMemory.empty α C)).capacity := by
        rw [ihl, ihc, hmin]
        exact hlt
      have hset : ((pushAll ts (ReplayMemory.empty α C)).push t).memory =
          (ts ++ [t]).map some := by
        rw [hmem_eq, if_pos hcap_lt, hp, hm, List.set_append,
          if_neg (by simp), List.length_map, Nat.sub_self, List.set_cons_zero,
          List.map_append]
        rfl
      refine ⟨ihc, ?_, ?_, ?_⟩
      · rw [hset, List.length_map, hlen']
        rw [min_eq_left (by omega)]
      · rw [hpos_eq, hp, ihc, hlen']
      · rw [hset, hlen']
        rcases Nat.lt_or_ge (ts.length + 1) C with h2 | h2
        · rw [Nat.mod_eq_of_lt h2, min_eq_left h2.le]
          simp
        · have hEq : ts.length + 1 = C := by omega
          rw [hEq, Nat.mod_self, min_self, Nat.sub_zero, Nat.sub_self,
            List.drop_zero, ← hEq, ← hlen', List.drop_length,
            List.take_of_length_le (by rw [hlen', hEq])]
          simp
    · -- saturated phase: the buffer is full and the push overwrites slot r
      have hr_lt : ts.length % C < C := Nat.mod_lt _ hC
      have hr_le : ts.length % C ≤ ts.length := Nat.mod_le _ _
      have hmin : min ts.length C = C := min_eq_right hge
      rw [hmin] at ihm
      set r := ts.length % C with hrdef
      have hlenC : (pushAll ts (ReplayMemory.empty α C)).memory.length = C := by
        rw [ihl, hmin]
      have hcap_not : ¬ (pushAll ts (ReplayMemory.empty α C)).memory.length <
          (pushAll ts (ReplayMemory.empty α C)).capacity := by
        rw [hlenC, ihc]
        exact lt_irrefl C
      have hAlen : ((ts.drop (ts.length - r)).map some).length = r := by
        rw [List.length_map, List.length_drop]
        omega
      have hBlen : ((ts.drop (ts.length - C)).take (C - r)).length = C - r := by
        rw [List.length_take, List.length_drop, Nat.sub_sub_self hge]
        exact min_eq_left (Nat.sub_le _ _)
      have hBne : (ts.drop (ts.length - C)).take (C - r) ≠ [] := by
        intro hB0
        rw [hB0] at hBlen
        simp at hBlen
        omega
      obtain ⟨b, B', hB⟩ := List.exists_cons_of_ne_nil hBne
      have hB' : B' = (ts.drop (ts.length - C + 1)).take (C - r - 1) := by
        have h1 : B' = ((ts.drop (ts.length - C)).take (C - r)).drop 1 := by
          rw [hB]
          rfl
        rw [h1, List.drop_take, List.drop_drop]
      have hset : ((pushAll ts (ReplayMemory.empty α C)).push t).memory =
          (ts.drop (ts.length - r) ++ t :: B').map some := by
        rw [hmem_eq, if_neg hcap_not, ihp, ihm, List.map_append,
          List.set_append, if_neg (by rw [hAlen]; exact lt_irrefl r), hAlen,
          Nat.sub_self, hB, List.map_cons, List.set_cons_zero, List.map_append,
          List.map_cons]
      refine ⟨ihc, ?_, ?_, ?_⟩
      · rw [hmem_eq, if_neg hcap_not, List.length_set, hlenC, hlen']
        rw [min_eq_right (by omega)]
      · rw [hpos_eq, ihp, ihc, hlen', hrdef]
        exact Nat.mod_add_mod _ _ _
      · rw [hset, hlen']
        have hminC : min (ts.length + 1) C = C := min_eq_right (by omega)
        rw [hminC]
        have hmod : (ts.length + 1) % C = (r + 1) % C := by
          rw [hrdef, Nat.mod_add_mod]
        rcases Nat.lt_or_ge (r + 1) C with h2 | h2
        · have hmod2 : (ts.length + 1) % C = r + 1 := by
            rw [hmod, Nat.mod_eq_of_lt h2]
          have hd1 : ts.length + 1 - (r + 1) = ts.length - r := by omega
          have hd2 : ts.length + 1 - C = ts.length - C + 1 := by omega
          have hz1 : ts.length - r - ts.length = 0 := by omega
          have hz2 : ts.length - C + 1 - ts.length = 0 := by omega
          rw [hmod2, hd1, hd2]
          rw [List.drop_append_eq_append_drop, hz1, List.drop_zero]
          rw [List.drop_append_eq_append_drop, hz2, List.drop_zero]
          rw [List.take_append_eq_append_take]
          have hz3 : C - (r + 1) - (ts.drop (ts.length - C + 1)).length = 0 := by
            rw [List.length_drop]
            omega
          rw [hz3, List.take_zero, List.append_nil]
          have hz4 : C - (r + 1) = C - r - 1 := by omega
          rw [hz4, ← hB']
          simp [List.append_assoc]
        · have hrC : r + 1 = C := by omega
          have hmod2 : (ts.length + 1) % C = 0 := by
            rw [hmod, hrC, Nat.mod_self]
          rw [hmod2]
          simp only [Nat.sub_zero]
          have hd2 : ts.length + 1 - C = ts.length - r := by omega
          have hnil1 : (ts ++ [t]).drop (ts.length + 1) = [] :=
            List.drop_eq_nil_of_le (by simp)
          rw [hd2, hnil1, List.nil_append]
          have hz1 : ts.length - r - ts.length = 0 := by omega
          rw [List.drop_append_eq_append_drop, hz1, List.drop_zero]
          have htake : (ts.drop (ts.length - r) ++ [t]).take C =
              ts.drop (ts.length - r) ++ [t] := by
            refine List.take_of_length_le ?_
            rw [List.length_append, List.length_drop]
            simp
            omega
          rw [htake]
          have hB'nil : B' = [] := by
            rw [hB']
            have hz5 : C - r - 1 = 0 := by omega
            rw [hz5, List.take_zero]
          rw [hB'nil]

/-- Claim C2: after any sequence of `n` pushes into a fresh `ReplayMemory` of
capacity `C > 0`, `len()` is `min n C` (it grows monotonically to `C` and then
stays `C`), the write cursor is `n % C` and hence always in `[0, C)`, the
backing list is exactly the last `min n C` pushed transitions laid out ring
style — the `n % C` newest in the low slots, having overwritten the oldest
entries, the older remainder after them — and consequently the buffer is a
permutation of (contains exactly) the `min n C` most recently pushed
transitions. -/
theorem replay_memory_ring_semantics {α : Type} (C : ℕ) (hC : 0 < C)
    (ts : List α) :
    (pushAll ts (ReplayMemory.empty α C)).size = min ts.length C ∧
      (pushAll ts (ReplayMemory.empty α C)).position = ts.length % C ∧
      (pushAll ts (ReplayMemory.empty α C)).position < C ∧
      (pushAll ts (ReplayMemory.empty α C)).memory =
        (ts.drop (ts.length - ts.length % C) ++
          (ts.drop (ts.length - min ts.length C)).take
            (min ts.length C - ts.length % C)).map some ∧
      (pushAll ts (ReplayMemory.empty α C)).memory.Perm
        ((ts.drop (ts.length - min ts.length C)).map some) := by
  obtain ⟨h1, h2, h3, h4⟩ := pushAll_closed_form C hC ts
  have hrm : ts.length % C ≤ min ts.length C :=
    le_min (Nat.mod_le _ _) (le_of_lt (Nat.mod_lt _ hC))
  have hmn : min ts.length C ≤ ts.length := min_le_left _ _
  refine ⟨h2, h3, by rw [h3]; exact Nat.mod_lt _ hC, h4, ?_⟩
  rw [h4]
  refine List.Perm.map some ?_
  have hdd : ts.drop (ts.length - ts.length % C) =
      (ts.drop (ts.length - min ts.length C)).drop
        (min ts.length C - ts.length % C) := by
    rw [List.drop_drop]
    congr 1
    set m := min ts.length C with hm
    set r := ts.length % C with hr
    omega
  rw [hdd]
  exact List.perm_append_comm.trans (by rw [List.take_append_drop])

/-- Witness for C2: three pushes into a capacity-2 buffer leave the cursor at
`3 % 2 = 1`, inside `[0, 2)`. -/
theorem replay_memory_ring_semantics_witness :
    (pushAll [10, 20, 30] (ReplayMemory.empty ℕ 2)).position < 2 :=
  (replay_memory_ring_semantics 2 (by decide) [10, 20, 30]).2.2.1

/-- Claim C3: sampling `k ≤ len()` transitions (for any draw of `k` distinct
valid positions) succeeds with exactly `k` entries, each present in the
current buffer and pairwise distinct whenever the buffer's entries are
(Python samples distinct positions; transitions are distinct objects);
sampling `k > len()` raises `ValueError` — `none`, no partial result — for
every draw, and `random.sample` never mutates the buffer (the embedded
`sample` returns only the drawn list; the memory is not part of its
result). -/
theorem sample_spec {α : Type} (mem : ReplayMemory α) (k : ℕ) (idxs : List ℕ) :
    (k ≤ mem.size → idxs.length = k → idxs.Nodup → (∀ i ∈ idxs, i < mem.size) →
      ∃ out, mem.sample k idxs = some out ∧ out.length = k ∧
        (∀ x ∈ out, x ∈ mem.memory) ∧ (mem.memory.Nodup → out.Nodup)) ∧
    (mem.size < k → mem.sample k idxs = none) := by
  constructor
  · intro h1 h2 h3 h4
    refine ⟨idxs.map fun i => mem.memory.getD i none, ?_, ?_, ?_, ?_⟩
    · unfold ReplayMemory.sample
      rw [if_pos ⟨h1, h2, h3, h4⟩]
    · rw [List.length_map]
      exact h2
    · intro x hx
      rw [List.mem_map] at hx
      obtain ⟨i, hi, rfl⟩ := hx
      rw [List.getD_eq_getElem _ _ (h4 i hi)]
      exact List.getElem_mem _
    · intro hnd
      refine List.Nodup.map_on ?_ h3
      intro i hi j hj hij
      rw [List.getD_eq_getElem _ _ (h4 i hi),
        List.getD_eq_getElem _ _ (h4 j hj)] at hij
      exact (List.Nodup.getElem_inj_iff hnd).mp hij
  · intro hk
    unfold ReplayMemory.sample
    rw [if_neg fun hc => absurd hc.1 (Nat.not_le.mpr hk)]

/-- Witness for C3: a two-slot buffer sampled with `k = 2` (draw `[1, 0]`)
succeeds; sampled with `k = 3` it fails with no partial result. -/
theorem sample_spec_witness :
    (∃ out, (⟨2, [some 10, some 20], 0⟩ : ReplayMemory ℕ).sample 2 [1, 0] =
          some out ∧ out.length = 2 ∧
        (∀ x ∈ out, x ∈ (⟨2, [some 10, some 20], 0⟩ : ReplayMemory ℕ).memory) ∧
        ((⟨2, [some 10, some 20], 0⟩ : ReplayMemory ℕ).memory.Nodup → out.Nodup)) ∧
      (⟨2, [some 10, some 20], 0⟩ : ReplayMemory ℕ).sample 3 [0, 1, 2] = none := by
  constructor
  · exact (sample_spec ⟨2, [some 10, some 20], 0⟩ 2 [1, 0]).1
      (by decide) (by decide) (by decide) (by decide)
  · exact (sample_spec ⟨2, [some 10, some 20], 0⟩ 3 [0, 1, 2]).2 (by decide)

/-- Binding an Option into a constantly failing continuation fails. -/
theorem option_bind_of_none (x : Option α) (f : α → Option β)
    (hf : ∀ a, f a = none) : x >>= f = none := by
  cases x <;> simp [hf]

/-- With a positive `store_step`, the episode loop completes and saves at
exactly the (1-based) episode indices that are multiples of `store_step`. -/
theorem runEpisodes_of_pos (store_step : ℕ) (h : store_step ≠ 0) (epi_num : ℕ) :
    runEpisodes store_step epi_num =
      some ((List.range (epi_num / store_step)).map fun j => store_step * (j + 1)) := by
  induction epi_num with
  | zero => simp [runEpisodes]
  | succ n ih =>
    rw [runEpisodes, List.range_succ, List.foldlM_append]
    rw [runEpisodes] at ih
    rw [ih]
    have hdvd : store_step ∣ n + 1 ↔ (n + 1) % store_step = 0 :=
      Nat.dvd_iff_mod_eq_zero
    by_cases hd : (n + 1) % store_step = 0
    · have hsucc : (n + 1) / store_step = n / store_step + 1 := by
        rw [Nat.succ_div, if_pos (hdvd.mpr hd)]
      have hmul : store_step * (n / store_step + 1) = n + 1 := by
        rw [← hsucc]
        exact Nat.mul_div_cancel' (hdvd.mpr hd)
      rw [hsucc, List.range_succ, List.map_append]
      simp [hd, h, hmul]
    · have hsucc : (n + 1) / store_step = n / store_step := by
        rw [Nat.succ_div, if_neg (fun hc => hd (hdvd.mp hc))]
        rfl
      rw [hsucc]
      simp [hd, h]

/-- With `store_step = 0`, the episode loop fails (the cadence test divides by
zero) as soon as there is one episode to run. -/
theorem runEpisodes_of_zero (epi_num : ℕ) (h : 0 < epi_num) :
    runEpisodes 0 epi_num = none := by
  obtain ⟨m, rfl⟩ : ∃ m, epi_num = m + 1 := ⟨epi_num - 1, by omega⟩
  rw [runEpisodes, List.range_succ, List.foldlM_append]
  exact option_bind_of_none _ _ fun keys => by simp

/-- Claim C8: over a whole training run with `0 < store ≤ epi_num`,
checkpoints are saved exactly after every `store_step = int(epi_num / store)`
episodes — the saved keys are the 1-based episode indices
`store_step, 2*store_step, ...` up to `epi_num` — so when `store` divides
`epi_num` exactly `store` checkpoints are saved, and a final group of fewer
than `store_step` episodes never triggers a save (every key is a multiple of
`store_step` and at most `epi_num`). -/
theorem rl_checkpoint_cadence (epi_num store : ℕ) (h1 : 0 < store)
    (h2 : store ≤ epi_num) :
    ∃ keys, rlCheckpoints epi_num store = some keys ∧
      keys = (List.range (epi_num / (epi_num / store))).map
          (fun j => (epi_num / store) * (j + 1)) ∧
      (store ∣ epi_num → keys.length = store) ∧
      ∀ k ∈ keys, (epi_num / store) ∣ k ∧ k ≤ epi_num := by
  have hss : epi_num / store ≠ 0 :=
    Nat.pos_iff_ne_zero.mp ((Nat.one_le_div_iff h1).mpr h2)
  refine ⟨_, ?_, rfl, ?_, ?_⟩
  · rw [rlCheckpoints, if_neg (by omega)]
    exact runEpisodes_of_pos _ hss _
  · intro hdvd
    rw [List.length_map, List.length_range, Nat.div_div_self hdvd (by omega)]
  · intro k hk
    rw [List.mem_map] at hk
    obtain ⟨j, hj, rfl⟩ := hk
    rw [List.mem_range] at hj
    refine ⟨dvd_mul_right _ _, ?_⟩
    calc (epi_num / store) * (j + 1)
        ≤ (epi_num / store) * (epi_num / (epi_num / store)) :=
          Nat.mul_le_mul_left _ (by omega)
      _ = (epi_num / (epi_num / store)) * (epi_num / store) := Nat.mul_comm _ _
      _ ≤ epi_num := Nat.div_mul_le_self _ _

/-- Witness for C8: `epi_num = 6`, `store = 3` saves exactly at episodes 2, 4
and 6 — three checkpoints. -/
theorem rl_checkpoint_cadence_witness :
    ∃ keys, rlCheckpoints 6 3 = some keys ∧
      keys = (List.range (6 / (6 / 3))).map (fun j => (6 / 3) * (j + 1)) ∧
      (3 ∣ 6 → keys.length = 3) ∧ ∀ k ∈ keys, (6 / 3) ∣ k ∧ k ≤ 6 :=
  rl_checkpoint_cadence 6 3 (by decide) (by decide)

/-- Claim C10: when `store` exceeds a positive `epi_num`,
`store_step = int(epi_num / store) = 0` and the run fails on the
checkpoint-cadence test (modulo by zero) at the end of the first episode —
already with a single episode the loop fails — rather than completing; and
any run that does complete with at least one episode had
`int(epi_num / store) ≥ 1`. -/
theorem rl_process_store_exceeding_epi_num (epi_num store : ℕ)
    (h1 : 0 < epi_num) (h2 : epi_num < store) :
    rlCheckpoints epi_num store = none ∧
      runEpisodes (epi_num / store) 1 = none ∧
      ∀ (e s : ℕ) (keys : List ℕ), 0 < e → rlCheckpoints e s = some keys →
        1 ≤ e / s := by
  have hss : epi_num / store = 0 := Nat.div_eq_of_lt h2
  refine ⟨?_, ?_, ?_⟩
  · rw [rlCheckpoints, if_neg (by omega), hss]
    exact runEpisodes_of_zero _ h1
  · rw [hss]
    exact runEpisodes_of_zero _ (by omega)
  · intro e s keys he hk
    by_contra hlt
    have hs0 : e / s = 0 := Nat.lt_one_iff.mp (Nat.not_le.mp hlt)
    rw [rlCheckpoints] at hk
    by_cases h : s = 0
    · rw [if_pos h] at hk; cases hk
    · rw [if_neg h, hs0, runEpisodes_of_zero e he] at hk; cases hk

/-- Claim C4: the epsilon threshold of `select_action` equals
`0.05 + (0.9 - 0.05) * exp(-steps/200)` for every step count; it starts at
`0.9`, decreases strictly, stays strictly above `0.05`, and tends to `0.05`
as the step count grows without bound. -/
theorem eps_threshold_schedule :
    eps_threshold 0 = 0.9 ∧
      (∀ m n : ℕ, m < n → eps_threshold n < eps_threshold m) ∧
      Filter.Tendsto eps_threshold Filter.atTop (nhds 0.05) ∧
      (∀ n : ℕ, 0.05 < eps_threshold n) ∧
      ∀ n : ℕ, eps_threshold n = 0.05 + (0.9 - 0.05) * Real.exp (-(n : ℝ) / 200) := by
  have hform : ∀ n : ℕ, eps_threshold n = 0.05 + (0.9 - 0.05) * Real.exp (-(n : ℝ) / 200) := by
    intro n
    unfold eps_threshold EPS_START EPS_END EPS_DECAY
    rw [show (-1 * (n : ℝ) / 200) = (-(n : ℝ) / 200) by ring]
  refine ⟨?_, ?_, ?_, ?_, hform⟩
  · rw [hform 0]
    norm_num
  · intro m n hmn
    rw [hform m, hform n]
    have hm : (m : ℝ) < n := Nat.cast_lt.mpr hmn
    have hexp : Real.exp (-(n : ℝ) / 200) < Real.exp (-(m : ℝ) / 200) :=
      Real.exp_lt_exp.mpr (by linarith)
    linarith
  · have h0 : Filter.Tendsto (fun n : ℕ => (n : ℝ) / 200) Filter.atTop Filter.atTop :=
      Filter.Tendsto.atTop_div_const (by norm_num) tendsto_natCast_atTop_atTop
    have h1 : Filter.Tendsto (fun n : ℕ => -((n : ℝ) / 200)) Filter.atTop Filter.atBot :=
      Filter.tendsto_neg_atTop_atBot.comp h0
    have h2 : Filter.Tendsto (fun n : ℕ => Real.exp (-((n : ℝ) / 200)))
        Filter.atTop (nhds 0) := Real.tendsto_exp_atBot.comp h1
    have h3 : Filter.Tendsto
        (fun n : ℕ => (0.05 : ℝ) + (0.9 - 0.05) * Real.exp (-((n : ℝ) / 200)))
        Filter.atTop (nhds (0.05 + (0.9 - 0.05) * 0)) :=
      (h2.const_mul _).const_add _
    have h4 : (0.05 : ℝ) + (0.9 - 0.05) * 0 = 0.05 := by norm_num
    rw [h4] at h3
    refine h3.congr fun n => ?_
    rw [hform n]
    ring_nf
  · intro n
    rw [hform n]
    have := Real.exp_pos (-(n : ℝ) / 200)
    nlinarith

/-- Witness for C10: one episode with `store = 2` fails instead of
completing. -/
theorem rl_process_store_exceeding_epi_num_witness :
    rlCheckpoints 1 2 = none ∧
      runEpisodes (1 / 2) 1 = none ∧
      ∀ (e s : ℕ) (keys : List ℕ), 0 < e → rlCheckpoints e s = some keys →
        1 ≤ e / s :=
  rl_process_store_exceeding_epi_num 1 2 (by decide) (by decide)

end RlVrp
